import Mathlib

/-!
Verification development for the `Sales-calculation` harvester
(`src/unnamed/part_000`, the current revision of `index.js`; `src/index.js`
is an earlier variant of the same script).

The JavaScript program is shallowly embedded:
* JS strings are Lean `String`s; JS string comparison `<` (lexicographic by
  code unit) is `jsStrLt` below.
* JS numbers appearing in the price table are modelled as `Rat` (the price
  code only passes them through `Number(v) || 0`; no float rounding is
  exercised, and `Number(v) || 0` on a numeric `v` is the identity, since
  it only replaces `0`/`NaN` by `0`).
* The external `crypto` SHA-1 is an opaque parameter `sha1 : String → String`.
* The browser document is modelled by the data the functions actually read:
  a page is the list of its table rows, paging is a list of successive page
  contents where `clickNextPage` moves iff a further page exists, and the
  pagination signature check is modelled over the observed post-click
  signatures.
-/

/-- Whitespace class used by the JS regex `\s` and `String.trim`
(restricted to the ASCII whitespace actually occurring in table text). -/
def jsIsWs (c : Char) : Bool :=
  c == ' ' || c == '\t' || c == '\n' || c == '\r' || c == Char.ofNat 11 || c == Char.ofNat 12

/-- Helper for `replace(/\s+/g, " ")`: collapse each run of whitespace to a
single space.  The flag records whether the previous character was whitespace. -/
def collapseWsGo : Bool → List Char → List Char
  | _, [] => []
  | prevWs, c :: cs =>
    if jsIsWs c then
      if prevWs then collapseWsGo true cs else ' ' :: collapseWsGo true cs
    else c :: collapseWsGo false cs

/-- Drop whitespace from both ends of a character list. -/
def trimChars (l : List Char) : List Char :=
  ((l.dropWhile jsIsWs).reverse.dropWhile jsIsWs).reverse

/-- The source's `norm`: `String(s ?? "").replace(/\s+/g, " ").trim()`. -/
def jsNorm (s : String) : String :=
  String.mk (trimChars (collapseWsGo false s.data))

/-- The JS `String.prototype.trim()` (as used inside `getUnitPrice`). -/
def jsTrim (s : String) : String :=
  String.mk (trimChars s.data)

/-- JS `s.slice(0, n)`. -/
def jsSlice (s : String) (n : Nat) : String :=
  String.mk (s.data.take n)

/-- JS string comparison `a < b` on character lists: lexicographic by code
unit, a proper prefix being smaller. -/
def jsStrLtChars : List Char → List Char → Bool
  | _, [] => false
  | [], _ :: _ => true
  | a :: as, b :: bs =>
    if a < b then true
    else if b < a then false
    else jsStrLtChars as bs

/-- JS string comparison `a < b`. -/
def jsStrLt (s t : String) : Bool :=
  jsStrLtChars s.data t.data

/-- The source's `monthKeyFrom`: first 7 characters of the normalized
timestamp, or `"unknown"` when it is too short. -/
def monthKeyFrom (dateTimeStr : String) : String :=
  let s := jsNorm dateTimeStr
  if s.length ≥ 7 then jsSlice s 7 else "unknown"

/-- A raw row as produced by `extractRowsFromBestTable` (all fields are the
normalized cell texts; a missing column yields `""`). -/
structure RawRow where
  orderAt : String
  clickAt : String
  adId : String
  adName : String
  siteName : String
  os : String
  referrer : String
  status : String
deriving DecidableEq

/-- The price table `prices.json`: `byAdId`, optional `byAdName`, and
`defaultUnitPrice`.  A JSON object is modelled as a partial map; a missing
`byAdId`/`byAdName` object is the empty map. -/
structure Prices where
  byAdId : String → Option Rat
  byAdName : String → Option Rat
  defaultUnitPrice : Rat

/-- The source's `getUnitPrice(prices, adId, adName)`: by trimmed id, then by
trimmed name, then the default.  (`Number(v) || 0` is the identity on the
numeric entry values of the model.) -/
def getUnitPrice (prices : Prices) (adId adName : String) : Rat :=
  let id := jsTrim adId
  if id ≠ "" ∧ (prices.byAdId id).isSome then (prices.byAdId id).getD 0
  else
    let name := jsTrim adName
    if name ≠ "" ∧ (prices.byAdName name).isSome then (prices.byAdName name).getD 0
    else prices.defaultUnitPrice

/-- A normalized conversion event, as built by `normalizeRows`. -/
structure Event where
  key : String
  eventAt : String
  orderAt : String
  clickAt : String
  adId : String
  adName : String
  siteName : String
  os : String
  referrer : String
  unit : Rat
  monthKey : String
deriving DecidableEq

/-- The `keySource` template string
`eventAt|adKey|siteName|os|referrer|adName` fed to `sha1`. -/
def keySourceOf (eventAt adKey siteName os referrer adName : String) : String :=
  eventAt ++ "|" ++ adKey ++ "|" ++ siteName ++ "|" ++ os ++ "|" ++ referrer ++ "|" ++ adName

/-- One step of the source's `normalizeRows` map: normalize every field,
derive `eventAt` (`orderAt || clickAt`) and `adKey` (`adId || adName`),
return `none` (the row is dropped) when either is empty, else build the
event with its resolved unit price, month key and fingerprint. -/
def normalizeRow (sha1 : String → String) (prices : Prices) (r : RawRow) : Option Event :=
  let orderAt := jsNorm r.orderAt
  let clickAt := jsNorm r.clickAt
  let eventAt := if orderAt ≠ "" then orderAt else clickAt
  let adId := jsNorm r.adId
  let adName := jsNorm r.adName
  let siteName := jsNorm r.siteName
  let os := jsNorm r.os
  let referrer := jsNorm r.referrer
  let adKey := if adId ≠ "" then adId else adName
  if eventAt = "" ∨ adKey = "" then none
  else
    let unit := getUnitPrice prices adId adName
    let monthKey := monthKeyFrom eventAt
    let key := sha1 (keySourceOf eventAt adKey siteName os referrer adName)
    some ⟨key, eventAt, orderAt, clickAt, adId, adName, siteName, os, referrer, unit, monthKey⟩

/-- The source's `normalizeRows`: map then drop the rejected rows
(`.map(...).filter(Boolean)`). -/
def normalizeRows (sha1 : String → String) (prices : Prices) (rows : List RawRow) : List Event :=
  rows.filterMap (normalizeRow sha1 prices)

/-- Helper for `uniqByKey`, carrying the set of keys already emitted.
A falsy (empty) key is skipped without being recorded, as in the source. -/
def uniqByKeyGo (seen : List String) : List Event → List Event
  | [] => []
  | x :: rest =>
    if x.key = "" then uniqByKeyGo seen rest
    else if seen.contains x.key then uniqByKeyGo seen rest
    else x :: uniqByKeyGo (x.key :: seen) rest

/-- The source's `uniqByKey`: dedup by `key`, keeping the first occurrence. -/
def uniqByKey (items : List Event) : List Event :=
  uniqByKeyGo [] items

/-- Helper for `mergeSeenKeys`: scan of the concatenated list from its end,
skipping empty keys and already-collected keys, stopping once `maxItems`
keys have been collected (note: one key is still pushed when
`maxItems = 0`, exactly as in the source's post-push break). -/
def mergeSeenKeysGo (maxItems : Nat) : List String → List String → Nat → List String
  | [], _, _ => []
  | k :: rest, seen, len =>
    if k = "" then mergeSeenKeysGo maxItems rest seen len
    else if seen.contains k then mergeSeenKeysGo maxItems rest seen len
    else if len + 1 ≥ maxItems then [k]
    else k :: mergeSeenKeysGo maxItems rest (k :: seen) (len + 1)

/-- The source's `mergeSeenKeys(prev, add, maxItems)`: keep the fingerprints
without duplicates, newest first on conflict, capped at `maxItems`. -/
def mergeSeenKeys (prev add : List String) (maxItems : Nat) : List String :=
  (mergeSeenKeysGo maxItems ((prev ++ add).reverse) [] 0).reverse

/-- The collected header texts (order-time, click-time, ad id, ad name, site
name, OS, referrer, status) configured in `main`'s `headerMap`. -/
structure HeaderMap where
  orderAt : String
  clickAt : String
  adId : String
  adName : String
  siteName : String
  os : String
  referrer : String
  status : String

/-- A `<table>` in the rendered document: the raw texts of its `thead th`
cells and, per `tbody tr`, the raw texts of its `td` cells. -/
structure HtmlTable where
  headerCells : List String
  bodyRows : List (List String)
deriving DecidableEq

/-- JS `hay.includes(needle)`: does `needle` occur contiguously in `hay`. -/
def substrOf (needle : List Char) : List Char → Bool
  | [] => needle.isEmpty
  | c :: rest => needle.isPrefixOf (c :: rest) || substrOf needle rest

/-- Header matching `h === n || h.includes(n)` (exact or substring). -/
def headerMatches (h n : String) : Bool :=
  h == n || substrOf n.data h.data

/-- The source's `scoreTable` inside `extractRowsFromBestTable`: 1000 per
matched expected heading (of the seven, empty targets skipped) plus the
`tbody tr` count. -/
def scoreTable (hm : HeaderMap) (t : HtmlTable) : Nat :=
  let headers := t.headerCells.map jsNorm
  let need := [hm.orderAt, hm.adId, hm.adName, hm.siteName, hm.clickAt, hm.os, hm.referrer]
  let score := (need.filter (fun n => n ≠ "" && headers.any (fun h => headerMatches h n))).length
  score * 1000 + t.bodyRows.length

/-- The `.map(score).sort((a, b) => b.s - a.s)[0]?.t` selection: the
highest-scoring table, the earliest in document order on ties (JS sort is
stable). -/
def bestTable (hm : HeaderMap) : List HtmlTable → Option HtmlTable
  | [] => none
  | t :: ts => some (ts.foldl (fun acc x => if scoreTable hm x > scoreTable hm acc then x else acc) t)

/-- The source's `headerIndex`: exact match first, then substring; `none`
models the JS `-1` (also returned for an empty target). -/
def headerIndex (headers : List String) (target : String) : Option Nat :=
  if target = "" then none
  else
    match headers.findIdx? (fun h => h == target) with
    | some i => some i
    | none => headers.findIdx? (fun h => substrOf target.data h.data)

/-- The row-building `get(i)`: `i >= 0 ? (tds[i] ?? "") : ""`. -/
def cellAt (tds : List String) : Option Nat → String
  | none => ""
  | some i => tds.getD i ""

/-- Extraction of the raw rows from one chosen table (the body of
`extractRowsFromBestTable` after `best` is picked): resolve each expected
column independently, then read every `tbody tr` with at least one `td`. -/
def extractFromTable (hm : HeaderMap) (t : HtmlTable) : List RawRow :=
  let headers := t.headerCells.map jsNorm
  let idxOrderAt := headerIndex headers hm.orderAt
  let idxClickAt := headerIndex headers hm.clickAt
  let idxAdId := headerIndex headers hm.adId
  let idxAdName := headerIndex headers hm.adName
  let idxSiteName := headerIndex headers hm.siteName
  let idxOs := headerIndex headers hm.os
  let idxReferrer := headerIndex headers hm.referrer
  let idxStatus := headerIndex headers hm.status
  t.bodyRows.filterMap (fun tr =>
    let tds := tr.map jsNorm
    if tds.isEmpty then none
    else some ⟨cellAt tds idxOrderAt, cellAt tds idxClickAt, cellAt tds idxAdId,
      cellAt tds idxAdName, cellAt tds idxSiteName, cellAt tds idxOs,
      cellAt tds idxReferrer, cellAt tds idxStatus⟩)

/-- The source's `extractRowsFromBestTable` over the document's tables:
empty when the document has no table at all, else the rows of the
best-scoring table. -/
def extractRowsFromBestTable (hm : HeaderMap) (tables : List HtmlTable) : List RawRow :=
  match bestTable hm tables with
  | none => []
  | some t => extractFromTable hm t

/-- The best table of `getTableSignature`, abstracted to the only data the
signature reads: `none` when no table exists, else the `innerText`s of the
best table's `tbody tr`s. -/
def TableView : Type := Option (List String)

/-- The source's `getTableSignature` applied to a table view:
`""` with no table, else `first + "||" + last` truncated to 2000. -/
def tableSignature : TableView → String
  | Option.none => ""
  | Option.some rowTexts =>
      jsSlice (rowTexts.headD "" ++ "||" ++ rowTexts.getLastD "") 2000

/-- Helper for `clickNextPage`: walk the selector candidates.  An entry
`none` is a selector with no element (skipped without a click); an entry
`some v` is a clicked candidate together with the table view observed after
the post-click wait.  `tryClick` reports a move only when the observed
signature is non-empty and differs from `before`; the first mover wins,
otherwise the text-search fallback attempt (whose observed view is `fb`,
whether or not it clicked anything) is judged by the same signature test. -/
def clickNextPageGo (before : String) : List (Option TableView) → TableView → Bool
  | [], fb =>
      let after := tableSignature fb
      decide (after ≠ "" ∧ after ≠ before)
  | Option.none :: rest, fb => clickNextPageGo before rest fb
  | Option.some v :: rest, fb =>
      let after := tableSignature v
      if after ≠ "" ∧ after ≠ before then true else clickNextPageGo before rest fb

/-- The source's `clickNextPage`: capture the signature before advancing,
then report whether some attempt's post-advance signature strictly changed. -/
def clickNextPage (beforeView : TableView) (attempts : List (Option TableView))
    (fallbackView : TableView) : Bool :=
  clickNextPageGo (tableSignature beforeView) attempts fallbackView

/-- Helper for `collectThisMonthRows`: the pages of the table are modelled
as the list of successive page contents (`clickNextPage` moves exactly when
a further page exists); the fuel is the remaining `maxPages` budget. -/
def collectMonthGo (sha1 : String → String) (prices : Prices) (targetMonth : String) :
    Nat → List (List RawRow) → List Event
  | 0, _ => []
  | fuel + 1, pages =>
    match pages with
    | [] => []
    | rows :: rest =>
      let normalized := normalizeRows sha1 prices rows
      let inMonth := normalized.filter (fun x => x.monthKey == targetMonth)
      let allOlder := !normalized.isEmpty &&
        normalized.all (fun x => jsStrLt x.monthKey targetMonth)
      if allOlder then inMonth
      else
        inMonth ++ (match rest with
          | [] => []
          | _ :: _ => collectMonthGo sha1 prices targetMonth fuel rest)

/-- The source's `collectThisMonthRows` (bootstrap harvest): gather the
events of the current month page by page, stop on an all-older page, on a
failed advance, or at the page budget; dedup by key at the end. -/
def collectThisMonthRows (sha1 : String → String) (prices : Prices) (targetMonth : String)
    (maxPages : Nat) (pages : List (List RawRow)) : List Event :=
  uniqByKey (collectMonthGo sha1 prices targetMonth maxPages pages)

/-- Helper for `collectNewRowsUntilSeen`, same page model as above.  The
seen set is the run's fixed `seenSet`; it does not grow during the loop. -/
def collectNewGo (sha1 : String → String) (prices : Prices) (seen : List String) :
    Nat → List (List RawRow) → List Event
  | 0, _ => []
  | fuel + 1, pages =>
    match pages with
    | [] => []
    | rows :: rest =>
      let normalized := normalizeRows sha1 prices rows
      let newOnes := normalized.filter (fun x => !seen.contains x.key)
      if newOnes.isEmpty then []
      else
        newOnes ++ (match rest with
          | [] => []
          | _ :: _ => collectNewGo sha1 prices seen fuel rest)

/-- The source's `collectNewRowsUntilSeen` (incremental harvest): collect
unseen events page by page, stop as soon as a page yields none, on a failed
advance, or at the page budget; dedup by key at the end. -/
def collectNewRowsUntilSeen (sha1 : String → String) (prices : Prices) (seen : List String)
    (maxPages : Nat) (pages : List (List RawRow)) : List Event :=
  uniqByKey (collectNewGo sha1 prices seen maxPages pages)

/-- One month's aggregate bucket of `state.monthly`. -/
structure Bucket where
  revenue : Rat
  count : Nat
deriving DecidableEq

/-- The bootstrap branch of `main` on `state.monthly`: seed the current
month's bucket with zeros, then add `(+1, +unit)` per collected event; the
other keys are left as loaded. -/
def bootstrapMonthly (monthly : String → Option Bucket) (nowMonth : String)
    (monthRows : List Event) : String → Option Bucket :=
  let finalBucket := monthRows.foldl (fun b x => ⟨b.revenue + x.unit, b.count + 1⟩) ⟨0, 0⟩
  fun k => if k = nowMonth then some finalBucket else monthly k

/-- Keep-first dedup (also skipping empty keys), scanning left to right with
an accumulator of already-kept keys; this is the order in which
`mergeSeenKeysGo` walks the reversed list, without the cap. -/
def dedupFirstGo (seen : List String) : List String → List String
  | [] => []
  | k :: rest =>
    if k = "" then dedupFirstGo seen rest
    else if seen.contains k then dedupFirstGo seen rest
    else k :: dedupFirstGo (k :: seen) rest

/-- Following the spec's words for the merge contract: deduplicate keeping
the last occurrence of each distinct value. -/
def dedupKeepLast : List String → List String
  | [] => []
  | x :: rest => if x ∈ rest then dedupKeepLast rest else x :: dedupKeepLast rest

/-- Following the spec's words: truncate to at most `cap` entries by
discarding the oldest (leftmost) ones. -/
def takeNewest (cap : Nat) (l : List String) : List String :=
  (l.reverse.take cap).reverse

/-- Following the spec's words for the merge contract: concatenate previous
and new, deduplicate keeping the last occurrence, truncate to `cap` from the
oldest end. -/
def mergeContractSpec (prev add : List String) (cap : Nat) : List String :=
  takeNewest cap (dedupKeepLast (prev ++ add))

theorem mergeSeenKeysGo_eq_take (cap : Nat) :
    ∀ (lr seen : List String) (len : Nat), len < cap →
      mergeSeenKeysGo cap lr seen len = (dedupFirstGo seen lr).take (cap - len) := by
  intro lr
  induction lr with
  | nil => intro seen len _; simp [mergeSeenKeysGo, dedupFirstGo]
  | cons k rest ih =>
    intro seen len h
    by_cases hk : k = ""
    · simp [mergeSeenKeysGo, dedupFirstGo, hk, ih seen len h]
    · by_cases hs : k ∈ seen
      · simp [mergeSeenKeysGo, dedupFirstGo, hk, hs, ih seen len h]
      · by_cases hcap : cap ≤ len + 1
        · have hc : cap - len = 1 := by omega
          simp [mergeSeenKeysGo, dedupFirstGo, hk, hs, hcap, hc]
        · have h2 : len + 1 < cap := by omega
          have hc : cap - len = (cap - (len + 1)) + 1 := by omega
          simp [mergeSeenKeysGo, dedupFirstGo, hk, hs, hcap, hc, ih (k :: seen) (len + 1) h2]

theorem dedupFirstGo_append_single (x : String) :
    ∀ (m seen : List String),
      dedupFirstGo seen (m ++ [x]) =
        dedupFirstGo seen m ++ (if x = "" ∨ x ∈ seen ∨ x ∈ m then [] else [x]) := by
  intro m
  induction m with
  | nil =>
    intro seen
    by_cases hx : x = "" <;> by_cases hs : x ∈ seen <;>
      simp [dedupFirstGo, hx, hs]
  | cons k m ih =>
    intro seen
    rw [List.cons_append]
    by_cases hk : k = ""
    · rw [show dedupFirstGo seen (k :: (m ++ [x])) = dedupFirstGo seen (m ++ [x]) by
        simp [dedupFirstGo, hk]]
      rw [show dedupFirstGo seen (k :: m) = dedupFirstGo seen m by
        simp [dedupFirstGo, hk]]
      rw [ih seen]
      by_cases hxk : x = k
      · have hx : x = "" := by rw [hxk]; exact hk
        simp [hx]
      · simp [List.mem_cons, hxk]
    · by_cases hs : k ∈ seen
      · rw [show dedupFirstGo seen (k :: (m ++ [x])) = dedupFirstGo seen (m ++ [x]) by
          simp [dedupFirstGo, hk, hs]]
        rw [show dedupFirstGo seen (k :: m) = dedupFirstGo seen m by
          simp [dedupFirstGo, hk, hs]]
        rw [ih seen]
        by_cases hxk : x = k
        · have hx : x ∈ seen := by rw [hxk]; exact hs
          simp [hx]
        · simp [List.mem_cons, hxk]
      · rw [show dedupFirstGo seen (k :: (m ++ [x])) = k :: dedupFirstGo (k :: seen) (m ++ [x]) by
          simp [dedupFirstGo, hk, hs]]
        rw [show dedupFirstGo seen (k :: m) = k :: dedupFirstGo (k :: seen) m by
          simp [dedupFirstGo, hk, hs]]
        rw [ih (k :: seen)]
        by_cases hxk : x = k
        · simp [List.mem_cons, hxk]
        · simp only [List.mem_cons, List.cons_append]
          congr 2
          by_cases hx : x = "" <;> by_cases hsx : x ∈ seen <;> by_cases hm : x ∈ m <;>
            simp [hx, hsx, hm, hxk]

theorem dedupFirstGo_reverse :
    ∀ (l : List String), "" ∉ l →
      dedupFirstGo [] l.reverse = (dedupKeepLast l).reverse := by
  intro l
  induction l with
  | nil => intro _; simp [dedupFirstGo, dedupKeepLast]
  | cons x rest ih =>
    intro hl
    have hx : x ≠ "" := fun h => hl (h ▸ List.mem_cons_self x rest)
    have hrest : "" ∉ rest := fun h => hl (List.mem_cons_of_mem x h)
    rw [List.reverse_cons, dedupFirstGo_append_single, ih hrest]
    by_cases hmem : x ∈ rest
    · simp [dedupKeepLast, hmem, hx]
    · simp [dedupKeepLast, hmem, hx]

theorem mergeSeenKeys_eq_contract (prev add : List String) (cap : Nat)
    (hcap : 0 < cap) (hprev : "" ∉ prev) (hadd : "" ∉ add) :
    mergeSeenKeys prev add cap = mergeContractSpec prev add cap := by
  have hall : "" ∉ prev ++ add := by
    intro h
    rcases List.mem_append.mp h with h1 | h2
    · exact hprev h1
    · exact hadd h2
  have h0 : (0 : Nat) < cap := hcap
  rw [mergeContractSpec, takeNewest, mergeSeenKeys,
    mergeSeenKeysGo_eq_take cap ((prev ++ add).reverse) [] 0 h0,
    dedupFirstGo_reverse (prev ++ add) hall]
  simp

theorem takeNewest_length_le (cap : Nat) (l : List String) :
    (takeNewest cap l).length ≤ cap := by
  simp [takeNewest]

/-- C2 counterexample: with `cap = 0` the source's merge still retains one
entry (the break check runs only after a push), so "the result length never
exceeds cap for any input sizes" fails as stated for arbitrary cap. -/
theorem mergeSeenKeys_cap_zero_breaks_bound :
    mergeSeenKeys ["a"] [] 0 = ["a"] ∧ ¬ (mergeSeenKeys ["a"] [] 0).length ≤ 0 := by
  decide

/-- C2 (amended): for lists of non-empty fingerprints and any cap at least
1, `mergeSeenKeys` concatenates previous then new, deduplicates keeping the
last occurrence of each distinct value in order, and truncates to at most
`cap` entries by discarding the oldest; `merge([a,b,c], [b,d], 3) =
[c,b,d]` and the result length never exceeds `cap`. -/
theorem mergeSeenKeys_contract (prev add : List String) (cap : Nat)
    (hcap : 1 ≤ cap) (hprev : "" ∉ prev) (hadd : "" ∉ add) :
    mergeSeenKeys prev add cap = mergeContractSpec prev add cap
    ∧ (mergeSeenKeys prev add cap).length ≤ cap
    ∧ mergeSeenKeys ["a", "b", "c"] ["b", "d"] 3 = ["c", "b", "d"] := by
  refine ⟨mergeSeenKeys_eq_contract prev add cap hcap hprev hadd, ?_, by decide⟩
  rw [mergeSeenKeys_eq_contract prev add cap hcap hprev hadd, mergeContractSpec]
  exact takeNewest_length_le cap _

/-- C2 witness: the amended contract instantiated at the spec's own
example `merge(prev=[a,b,c], new=[b,d], cap=3)`. -/
theorem mergeSeenKeys_contract_witness :
    mergeSeenKeys ["a", "b", "c"] ["b", "d"] 3 = mergeContractSpec ["a", "b", "c"] ["b", "d"] 3
    ∧ (mergeSeenKeys ["a", "b", "c"] ["b", "d"] 3).length ≤ 3
    ∧ mergeSeenKeys ["a", "b", "c"] ["b", "d"] 3 = ["c", "b", "d"] :=
  mergeSeenKeys_contract ["a", "b", "c"] ["b", "d"] 3 (by decide) (by decide) (by decide)

/-- The `orderAt || clickAt` event time of a raw row after normalization. -/
def eventAtOf (r : RawRow) : String :=
  if jsNorm r.orderAt ≠ "" then jsNorm r.orderAt else jsNorm r.clickAt

/-- The `adId || adName` ad key of a raw row after normalization. -/
def adKeyOf (r : RawRow) : String :=
  if jsNorm r.adId ≠ "" then jsNorm r.adId else jsNorm r.adName

theorem normalizeRow_some_iff (sha1 : String → String) (prices : Prices) (r : RawRow)
    (e : Event) :
    normalizeRow sha1 prices r = some e ↔
      (eventAtOf r ≠ "" ∧ adKeyOf r ≠ "" ∧
        e = ⟨sha1 (keySourceOf (eventAtOf r) (adKeyOf r) (jsNorm r.siteName) (jsNorm r.os)
              (jsNorm r.referrer) (jsNorm r.adName)),
            eventAtOf r, jsNorm r.orderAt, jsNorm r.clickAt, jsNorm r.adId, jsNorm r.adName,
            jsNorm r.siteName, jsNorm r.os, jsNorm r.referrer,
            getUnitPrice prices (jsNorm r.adId) (jsNorm r.adName),
            monthKeyFrom (eventAtOf r)⟩) := by
  unfold normalizeRow eventAtOf adKeyOf
  by_cases h : (if jsNorm r.orderAt ≠ "" then jsNorm r.orderAt else jsNorm r.clickAt) = ""
      ∨ (if jsNorm r.adId ≠ "" then jsNorm r.adId else jsNorm r.adName) = ""
  · simp only [if_pos h]
    constructor
    · intro hc; exact absurd hc (by simp)
    · intro hc
      rcases h with h | h
      · exact absurd h hc.1
      · exact absurd h hc.2.1
  · rw [if_neg h]
    push_neg at h
    constructor
    · intro hc
      exact ⟨h.1, h.2, (Option.some_inj.mp hc).symm⟩
    · intro hc
      exact congrArg some hc.2.2.symm

/-- Identity stand-in for the opaque external `sha1`, used by witnesses. -/
def hashId (s : String) : String := s

/-- Concrete price table fixture: `ad1` priced 300 by id, `NameX` priced 500
by name, default 100. -/
def pricesFix : Prices :=
  ⟨fun s => if s = "ad1" then some 300 else none,
   fun s => if s = "NameX" then some 500 else none, 100⟩

/-- Concrete raw row fixture (a fully populated, accepted row). -/
def rowFix : RawRow :=
  ⟨"2024-06-01 10:00:00", "2024-06-01 09:00:00", "ad1", "NameX", "SiteA", "iOS",
   "https://x.example/", "approved"⟩

/-- The event `normalizeRows` produces from `rowFix` under `hashId` and
`pricesFix`. -/
def evFix : Event :=
  ⟨"2024-06-01 10:00:00|ad1|SiteA|iOS|https://x.example/|NameX",
   "2024-06-01 10:00:00", "2024-06-01 10:00:00", "2024-06-01 09:00:00", "ad1", "NameX",
   "SiteA", "iOS", "https://x.example/", 300, "2024-06"⟩

/-- C1: for every raw row accepted by normalize, the emitted event's
fingerprint is the hash of exactly the six fields
`(eventTime, adKey, siteName, os, referrer, adName)` with `eventTime =
orderAt || clickAt` and `adKey = adId || adName`; and two raw rows that
differ only in the status field produce identical fingerprints. -/
theorem normalize_fingerprint_six_fields (sha1 : String → String) (prices : Prices)
    (r : RawRow) :
    (∀ e : Event, normalizeRow sha1 prices r = some e →
      e.key = sha1 (keySourceOf e.eventAt (if e.adId ≠ "" then e.adId else e.adName)
        e.siteName e.os e.referrer e.adName))
    ∧ (∀ st : String,
        (normalizeRow sha1 prices { r with status := st }).map Event.key =
          (normalizeRow sha1 prices r).map Event.key) := by
  constructor
  · intro e he
    rcases (normalizeRow_some_iff sha1 prices r e).mp he with ⟨_, _, rfl⟩
    rfl
  · intro st
    simp [normalizeRow]

/-- C1 witness: the fingerprint formula evaluated on the concrete fixture. -/
theorem normalize_fingerprint_six_fields_witness :
    evFix.key = hashId (keySourceOf evFix.eventAt
      (if evFix.adId ≠ "" then evFix.adId else evFix.adName)
      evFix.siteName evFix.os evFix.referrer evFix.adName) :=
  (normalize_fingerprint_six_fields hashId pricesFix rowFix).1 evFix (by decide)

/-- C8: a raw row yields an event iff, after whitespace normalization, both
the event time (`orderAt || clickAt`) and the ad key (`adId || adName`) are
non-empty; every emitted event has a non-empty event time and a non-empty ad
key. -/
theorem normalize_accepts_iff (sha1 : String → String) (prices : Prices) (r : RawRow) :
    ((normalizeRow sha1 prices r).isSome ↔ (eventAtOf r ≠ "" ∧ adKeyOf r ≠ ""))
    ∧ (∀ e : Event, normalizeRow sha1 prices r = some e →
        e.eventAt ≠ "" ∧ (e.adId ≠ "" ∨ e.adName ≠ "")) := by
  constructor
  · constructor
    · intro hs
      rcases Option.isSome_iff_exists.mp hs with ⟨e, he⟩
      rcases (normalizeRow_some_iff sha1 prices r e).mp he with ⟨h1, h2, _⟩
      exact ⟨h1, h2⟩
    · intro ⟨h1, h2⟩
      exact Option.isSome_iff_exists.mpr
        ⟨_, (normalizeRow_some_iff sha1 prices r _).mpr ⟨h1, h2, rfl⟩⟩
  · intro e he
    rcases (normalizeRow_some_iff sha1 prices r e).mp he with ⟨h1, h2, rfl⟩
    refine ⟨h1, ?_⟩
    unfold adKeyOf at h2
    by_cases hid : jsNorm r.adId ≠ ""
    · exact Or.inl hid
    · rw [if_neg hid] at h2
      exact Or.inr h2

/-- C8 witness: the accepted fixture row's event has non-empty event time
and ad key. -/
theorem normalize_accepts_iff_witness :
    evFix.eventAt ≠ "" ∧ (evFix.adId ≠ "" ∨ evFix.adName ≠ "") :=
  (normalize_accepts_iff hashId pricesFix rowFix).2 evFix (by decide)

/-- C7: price resolution follows by-ad-id, then by-ad-name, then default;
a `byAdId` entry for the trimmed non-empty id wins regardless of `byAdName`. -/
theorem getUnitPrice_resolution_order (prices : Prices) (adId adName : String) :
    (∀ v : Rat, jsTrim adId ≠ "" → prices.byAdId (jsTrim adId) = some v →
      getUnitPrice prices adId adName = v)
    ∧ ((jsTrim adId = "" ∨ prices.byAdId (jsTrim adId) = none) →
        ∀ w : Rat, jsTrim adName ≠ "" → prices.byAdName (jsTrim adName) = some w →
          getUnitPrice prices adId adName = w)
    ∧ ((jsTrim adId = "" ∨ prices.byAdId (jsTrim adId) = none) →
        (jsTrim adName = "" ∨ prices.byAdName (jsTrim adName) = none) →
        getUnitPrice prices adId adName = prices.defaultUnitPrice) := by
  refine ⟨?_, ?_, ?_⟩
  · intro v hid hsome
    have hc : jsTrim adId ≠ "" ∧ (prices.byAdId (jsTrim adId)).isSome := ⟨hid, by simp [hsome]⟩
    simp [getUnitPrice, hc, hsome]
  · intro hfail w hname hsome
    have hc1 : ¬ (jsTrim adId ≠ "" ∧ (prices.byAdId (jsTrim adId)).isSome) := by
      rcases hfail with h | h
      · exact fun hc => hc.1 h
      · exact fun hc => by simp [h] at hc
    have hc2 : jsTrim adName ≠ "" ∧ (prices.byAdName (jsTrim adName)).isSome :=
      ⟨hname, by simp [hsome]⟩
    simp [getUnitPrice, hc1, hc2, hsome]
  · intro hfail1 hfail2
    have hc1 : ¬ (jsTrim adId ≠ "" ∧ (prices.byAdId (jsTrim adId)).isSome) := by
      rcases hfail1 with h | h
      · exact fun hc => hc.1 h
      · exact fun hc => by simp [h] at hc
    have hc2 : ¬ (jsTrim adName ≠ "" ∧ (prices.byAdName (jsTrim adName)).isSome) := by
      rcases hfail2 with h | h
      · exact fun hc => hc.1 h
      · exact fun hc => by simp [h] at hc
    simp [getUnitPrice, hc1, hc2]

/-- C7 witness: `ad1` is priced 300 by id while its name `NameX` is priced
500 by name; the by-id value wins. -/
theorem getUnitPrice_resolution_order_witness :
    getUnitPrice pricesFix "ad1" "NameX" = 300 :=
  (getUnitPrice_resolution_order pricesFix "ad1" "NameX").1 300 (by decide) (by decide)

/-- All price entries (by id, by name, and the default) are non-negative
integers, the sanity condition the spec's data model ascribes to the price
table. -/
def PricesNatValued (p : Prices) : Prop :=
  (∀ id v, p.byAdId id = some v → ∃ n : Nat, v = (n : Rat))
  ∧ (∀ nm w, p.byAdName nm = some w → ∃ n : Nat, w = (n : Rat))
  ∧ ∃ n : Nat, p.defaultUnitPrice = (n : Rat)

theorem getUnitPrice_natValued (prices : Prices) (hp : PricesNatValued prices)
    (adId adName : String) :
    ∃ n : Nat, getUnitPrice prices adId adName = (n : Rat) := by
  obtain ⟨h1, h2, h3⟩ := hp
  by_cases c1 : jsTrim adId ≠ "" ∧ (prices.byAdId (jsTrim adId)).isSome
  · rcases Option.isSome_iff_exists.mp c1.2 with ⟨v, hv⟩
    rcases h1 _ v hv with ⟨n, hn⟩
    exact ⟨n, by simp [getUnitPrice, c1, hv, hn]⟩
  · by_cases c2 : jsTrim adName ≠ "" ∧ (prices.byAdName (jsTrim adName)).isSome
    · rcases Option.isSome_iff_exists.mp c2.2 with ⟨w, hw⟩
      rcases h2 _ w hw with ⟨n, hn⟩
      exact ⟨n, by simp [getUnitPrice, c1, c2, hw, hn]⟩
    · rcases h3 with ⟨n, hn⟩
      exact ⟨n, by simp [getUnitPrice, c1, c2, hn]⟩

/-- C9 counterexample: with an arbitrary numeric price entry (here -5), the
emitted event's unit price is negative — the claimed non-negativity fails
for arbitrary entry values, since `getUnitPrice` passes entries through
unchecked. -/
theorem unitPrice_negative_entry_counterexample :
    (normalizeRows hashId
        ⟨fun s => if s = "ad1" then some (-5) else none, fun _ => none, 0⟩
        [rowFix]).map Event.unit = [(-5 : Rat)]
    ∧ ¬ (0 : Rat) ≤ (-5 : Rat) := by
  decide

/-- C9 (amended): when every price-table entry (by id, by name, default) is
a non-negative integer — as the data model intends — the resolved unit price
of every emitted event is a non-negative integer (0 denoting unresolved). -/
theorem unitPrice_nonneg_integer (sha1 : String → String) (prices : Prices)
    (r : RawRow) (e : Event) (hp : PricesNatValued prices)
    (he : normalizeRow sha1 prices r = some e) :
    ∃ n : Nat, e.unit = (n : Rat) := by
  rcases (normalizeRow_some_iff sha1 prices r e).mp he with ⟨_, _, rfl⟩
  exact getUnitPrice_natValued prices hp (jsNorm r.adId) (jsNorm r.adName)

/-- C9 witness: the fixture table is integer-valued and the fixture event's
unit price is the non-negative integer 300. -/
theorem unitPrice_nonneg_integer_witness :
    ∃ n : Nat, evFix.unit = (n : Rat) :=
  unitPrice_nonneg_integer hashId pricesFix rowFix evFix
    ⟨fun id v h => ⟨300, by by_cases hi : id = "ad1" <;> simp [pricesFix, hi] at h <;> simp [pricesFix, hi, h.symm]⟩,
     fun nm w h => ⟨500, by by_cases hn : nm = "NameX" <;> simp [pricesFix, hn] at h <;> simp [pricesFix, hn, h.symm]⟩,
     ⟨100, by norm_num [pricesFix]⟩⟩
    (by decide)

/-- C3: if every event normalized from the first page is already in the
seen-fingerprint set, the incremental harvest stops at that page and returns
no new events, whatever the deeper pages hold and whatever the page budget. -/
theorem collectNew_idempotent (sha1 : String → String) (prices : Prices)
    (seen : List String) (maxPages : Nat) (pages : List (List RawRow))
    (h : ∀ e ∈ normalizeRows sha1 prices (pages.headD []), seen.contains e.key = true) :
    collectNewRowsUntilSeen sha1 prices seen maxPages pages = [] := by
  cases maxPages with
  | zero =>
    simp [collectNewRowsUntilSeen, collectNewGo, uniqByKey, uniqByKeyGo]
  | succ n =>
    cases pages with
    | nil => simp [collectNewRowsUntilSeen, collectNewGo, uniqByKey, uniqByKeyGo]
    | cons rows rest =>
      have h' : ∀ e ∈ normalizeRows sha1 prices rows, e.key ∈ seen := by
        intro e he
        have hc := h e (by simpa using he)
        simpa using hc
      simp [collectNewRowsUntilSeen, collectNewGo, uniqByKey, uniqByKeyGo]
      rw [if_pos h']
      rfl

/-- C3 witness: re-running on an unchanged single page whose event key is
already in the seen set yields no new events. -/
theorem collectNew_idempotent_witness :
    collectNewRowsUntilSeen hashId pricesFix
      ["2024-06-01 10:00:00|ad1|SiteA|iOS|https://x.example/|NameX"] 10 [[rowFix]] = [] :=
  collectNew_idempotent hashId pricesFix
    ["2024-06-01 10:00:00|ad1|SiteA|iOS|https://x.example/|NameX"] 10 [[rowFix]]
    (by decide)

theorem bootstrap_fold_bucket (rows : List Event) :
    ∀ b : Bucket,
      rows.foldl (fun b x => Bucket.mk (b.revenue + x.unit) (b.count + 1)) b =
        ⟨b.revenue + (rows.map Event.unit).sum, b.count + rows.length⟩ := by
  induction rows with
  | nil => intro b; simp
  | cons x rows ih =>
    intro b
    rw [List.foldl_cons, ih]
    simp [add_assoc]
    ring

/-- C10: the bootstrap branch overwrites the current month's bucket: after
bootstrap, the current month's totals are exactly the count and
unit-price sum of the collected events, regardless of the loaded state. -/
theorem bootstrap_overwrites_current_month (monthly : String → Option Bucket)
    (nowMonth : String) (monthRows : List Event) :
    bootstrapMonthly monthly nowMonth monthRows nowMonth =
      some ⟨(monthRows.map Event.unit).sum, monthRows.length⟩ := by
  rw [bootstrapMonthly]
  simp [bootstrap_fold_bucket monthRows ⟨0, 0⟩]

/-- C5: the pagination advance reports success exactly when some clicked
attempt (or the final text-search fallback, clicked or not) is followed by a
non-empty table signature that strictly differs from the pre-advance
signature; in particular an unchanged signature is always reported as
"did not move". -/
theorem clickNextPage_iff_signature_changed (beforeView : TableView)
    (attempts : List (Option TableView)) (fallbackView : TableView) :
    clickNextPage beforeView attempts fallbackView = true ↔
      ∃ v : TableView, (Option.some v ∈ attempts ∨ v = fallbackView) ∧
        tableSignature v ≠ "" ∧ tableSignature v ≠ tableSignature beforeView := by
  rw [clickNextPage]
  induction attempts with
  | nil => simp [clickNextPageGo]
  | cons a rest ih =>
    cases a with
    | none =>
      rw [show clickNextPageGo (tableSignature beforeView) (Option.none :: rest) fallbackView
          = clickNextPageGo (tableSignature beforeView) rest fallbackView from rfl, ih]
      constructor
      · rintro ⟨v, hv, hp⟩
        exact ⟨v, by tauto, hp⟩
      · rintro ⟨v, hv | hv, hp⟩
        · rcases List.mem_cons.mp hv with h | h
          · exact absurd h (by simp)
          · exact ⟨v, Or.inl h, hp⟩
        · exact ⟨v, Or.inr hv, hp⟩
    | some u =>
      by_cases hu : tableSignature u ≠ "" ∧ tableSignature u ≠ tableSignature beforeView
      · rw [show clickNextPageGo (tableSignature beforeView) (Option.some u :: rest) fallbackView
            = true from by simp [clickNextPageGo, hu]]
        exact iff_of_true rfl ⟨u, Or.inl (List.mem_cons_self _ _), hu⟩
      · rw [show clickNextPageGo (tableSignature beforeView) (Option.some u :: rest) fallbackView
            = clickNextPageGo (tableSignature beforeView) rest fallbackView from by
              simp [clickNextPageGo, hu], ih]
        constructor
        · rintro ⟨v, hv, hp⟩
          exact ⟨v, by tauto, hp⟩
        · rintro ⟨v, hv | hv, hp⟩
          · rcases List.mem_cons.mp hv with h | h
            · exact absurd ((Option.some_inj.mp h) ▸ hp) hu
            · exact ⟨v, Or.inl h, hp⟩
          · exact ⟨v, Or.inr hv, hp⟩

/-- C5 witness: a changed non-empty signature is success, instantiated
concretely through the equivalence. -/
theorem clickNextPage_iff_signature_changed_witness :
    clickNextPage (Option.some ["p1row"]) [Option.some (Option.some ["p2row"])]
      (Option.some ["p1row"]) = true :=
  (clickNextPage_iff_signature_changed (Option.some ["p1row"])
      [Option.some (Option.some ["p2row"])] (Option.some ["p1row"])).mpr
    ⟨Option.some ["p2row"], Or.inl (List.mem_cons_self _ _), by decide, by decide⟩

theorem bestTable_foldl_mem (hm : HeaderMap) :
    ∀ (ts : List HtmlTable) (t : HtmlTable),
      ts.foldl (fun acc x => if scoreTable hm x > scoreTable hm acc then x else acc) t ∈
        t :: ts := by
  intro ts
  induction ts with
  | nil => intro t; simp
  | cons x ts ih =>
    intro t
    rw [List.foldl_cons]
    by_cases hc : scoreTable hm x > scoreTable hm t
    · rw [if_pos hc]
      rcases List.mem_cons.mp (ih x) with h | h
      · simp [h]
      · simp [h]
    · rw [if_neg hc]
      rcases List.mem_cons.mp (ih t) with h | h
      · simp [h]
      · simp [h]

theorem bestTable_mem (hm : HeaderMap) (tables : List HtmlTable) (t : HtmlTable)
    (h : bestTable hm tables = some t) : t ∈ tables := by
  cases tables with
  | nil => exact absurd h (by simp [bestTable])
  | cons t0 ts =>
    rw [bestTable, Option.some_inj] at h
    exact h ▸ bestTable_foldl_mem hm ts t0

/-- Header-map fixture with seven pairwise distinct expected headings. -/
def hmFix : HeaderMap := ⟨"A", "B", "C", "D", "E", "F", "G", "H"⟩

/-- A table matching 2 of the 7 expected headers, with 5 data rows
(score 2005). -/
def tableLow : HtmlTable :=
  ⟨["A", "B"], [["r", "s"], ["r", "s"], ["r", "s"], ["r", "s"], ["r", "s"]]⟩

/-- A table matching 5 of the 7 expected headers, with 1 data row
(score 5001). -/
def tableHigh : HtmlTable :=
  ⟨["A", "B", "C", "D", "E"], [["1", "2", "3", "4", "5"]]⟩

/-- C6: every table is scored as 1000 per matched expected heading plus its
data-row count; extraction takes the highest-scoring table; when no table
scores above zero the result is the empty sequence; and a 5-of-7-headers,
1-row table beats a 2-of-7-headers, 5-row table. -/
theorem extract_best_table_selection :
    (∀ (hm : HeaderMap) (tables : List HtmlTable),
      (∀ t ∈ tables, scoreTable hm t = 0) → extractRowsFromBestTable hm tables = [])
    ∧ scoreTable hmFix tableLow = 2 * 1000 + 5
    ∧ scoreTable hmFix tableHigh = 5 * 1000 + 1
    ∧ bestTable hmFix [tableLow, tableHigh] = some tableHigh
    ∧ extractRowsFromBestTable hmFix [tableLow, tableHigh] =
        extractFromTable hmFix tableHigh := by
  refine ⟨?_, by decide, by decide, by decide, by decide⟩
  intro hm tables h
  rw [extractRowsFromBestTable]
  cases hb : bestTable hm tables with
  | none => rfl
  | some t =>
    have hmem : t ∈ tables := bestTable_mem hm tables t hb
    have hscore : scoreTable hm t = 0 := h t hmem
    have hlen : t.bodyRows.length = 0 := by
      rw [scoreTable] at hscore
      omega
    simp only [extractFromTable, List.length_eq_zero.mp hlen, List.filterMap_nil]

/-- C6 witness: a document whose only table matches no header and has no
rows (score zero) extracts to the empty sequence. -/
theorem extract_best_table_selection_witness :
    extractRowsFromBestTable hmFix [⟨["X"], []⟩] = [] :=
  extract_best_table_selection.1 hmFix [⟨["X"], []⟩] (by decide)

theorem uniqByKeyGo_subset :
    ∀ (l : List Event) (seen : List String) (x : Event), x ∈ uniqByKeyGo seen l → x ∈ l := by
  intro l
  induction l with
  | nil => intro seen x h; simp [uniqByKeyGo] at h
  | cons y rest ih =>
    intro seen x h
    by_cases h1 : y.key = ""
    · simp only [uniqByKeyGo, if_pos h1] at h
      exact List.mem_cons_of_mem y (ih seen x h)
    · by_cases h2 : y.key ∈ seen
      · rw [show uniqByKeyGo seen (y :: rest) = uniqByKeyGo seen rest from by
          simp [uniqByKeyGo, h1, h2]] at h
        exact List.mem_cons_of_mem y (ih seen x h)
      · rw [show uniqByKeyGo seen (y :: rest) = y :: uniqByKeyGo (y.key :: seen) rest from by
          simp [uniqByKeyGo, h1, h2]] at h
        rcases List.mem_cons.mp h with h | h
        · simp [h]
        · exact List.mem_cons_of_mem y (ih (y.key :: seen) x h)

theorem collectMonthGo_monthKey (sha1 : String → String) (prices : Prices) (tm : String) :
    ∀ (fuel : Nat) (pages : List (List RawRow)) (e : Event),
      e ∈ collectMonthGo sha1 prices tm fuel pages → e.monthKey = tm := by
  intro fuel
  induction fuel with
  | zero => intro pages e h; simp [collectMonthGo] at h
  | succ n ih =>
    intro pages e h
    cases pages with
    | nil => simp [collectMonthGo] at h
    | cons rows rest =>
      simp only [collectMonthGo] at h
      split at h
      · have hm := List.mem_filter.mp h
        simpa using hm.2
      · rcases List.mem_append.mp h with h | h
        · have hm := List.mem_filter.mp h
          simpa using hm.2
        · cases rest with
          | nil => simp at h
          | cons r rs => exact ih (r :: rs) e h

/-- First page of the month-boundary scenario: two June rows. -/
def rJun1 : RawRow := ⟨"2024-06-02 12:00:00", "", "ad1", "", "", "", "", ""⟩
def rJun2 : RawRow := ⟨"2024-06-01 18:30:00", "", "ad2", "", "", "", "", ""⟩
/-- Second page of the month-boundary scenario: one June row. -/
def rJun3 : RawRow := ⟨"2024-06-01 09:00:00", "", "ad3", "", "", "", "", ""⟩
/-- Third page of the month-boundary scenario: a May-only page. -/
def rMay : RawRow := ⟨"2024-05-31 23:59:00", "", "ad9", "", "", "", "", ""⟩

set_option maxRecDepth 8000 in
theorem collectMonthGo_boundary_scenario (extra : Nat) (p4 : List RawRow) :
    collectMonthGo hashId pricesFix "2024-06" (extra + 3)
        [[rJun1, rJun2], [rJun3], [rMay], p4] =
      normalizeRows hashId pricesFix [rJun1, rJun2] ++
        (normalizeRows hashId pricesFix [rJun3] ++ []) := rfl

/-- C4: on the page sequence `[2024-06, 2024-06, 2024-05, 2024-05]` the
bootstrap harvest stops at the first all-previous-month page — the fourth
page is never read, whatever it contains — and returns exactly the
deduplicated June events; in general every returned event's `monthKey`
equals the target month. -/
theorem bootstrap_month_boundary :
    (∀ p4 : List RawRow,
      collectThisMonthRows hashId pricesFix "2024-06" 50
          [[rJun1, rJun2], [rJun3], [rMay], p4] =
        normalizeRows hashId pricesFix [rJun1, rJun2, rJun3])
    ∧ (∀ (sha1 : String → String) (prices : Prices) (targetMonth : String)
        (maxPages : Nat) (pages : List (List RawRow)) (e : Event),
        e ∈ collectThisMonthRows sha1 prices targetMonth maxPages pages →
          e.monthKey = targetMonth) := by
  constructor
  · intro p4
    simp only [collectThisMonthRows]
    rw [show (50 : Nat) = 47 + 3 from rfl, collectMonthGo_boundary_scenario 47 p4]
    decide
  · intro sha1 prices tm maxPages pages e he
    simp only [collectThisMonthRows, uniqByKey] at he
    exact collectMonthGo_monthKey sha1 prices tm maxPages pages e
      (uniqByKeyGo_subset _ [] e he)

/-- The event produced from `rJun1` under `hashId` and `pricesFix`. -/
def evJun1 : Event :=
  ⟨"2024-06-02 12:00:00|ad1||||", "2024-06-02 12:00:00", "2024-06-02 12:00:00", "",
   "ad1", "", "", "", "", 300, "2024-06"⟩

/-- C4 witness: a concrete harvested event's month key is the target month. -/
theorem bootstrap_month_boundary_witness : evJun1.monthKey = "2024-06" :=
  bootstrap_month_boundary.2 hashId pricesFix "2024-06" 50 [[rJun1]] evJun1
    (by rw [show (50 : Nat) = 49 + 1 from rfl]; decide)
